import Mathlib

/-!
Verification of the `QueryCache` component of cdash-mcp.

Shallow embedding of `src/cdash_mcp_server/cache.py`.

Modelling conventions:
* Python's `OrderedDict[str, Tuple[Any, float]]` is an association list
  `List (String × (α × Int))`, oldest (least-recently-used) entry first,
  most-recently-used entry last: `move_to_end(key)` removes the binding and
  appends it at the end, `popitem(last=False)` drops the head.
* `time.time()` is an explicit `now : Int` argument threaded through the
  operations (the code only adds to it and compares it).
* Cached values are an arbitrary type `α` (Python `Any`).
* Python values that may appear inside `variables` are the inductive `PyVal`;
  the constructor `PyVal.vobj` stands for a Python object that
  `json.dumps` cannot serialize (it raises `TypeError` there), so the
  serializer is the fallible `dumpsVal : PyVal → Option String`.
* `json.dumps(key_data, sort_keys=True)` is modelled faithfully, including
  default separators `", "` / `": "`, string escaping with `ensure_ascii`,
  and recursive sorting of object keys.  (One inessential refactoring: the
  model serializes each value first and then sorts the `(key, serialized)`
  pairs by key; since the comparison only looks at the key and serialization
  of each pair is independent, this produces the same output string as
  sorting first.  Characters above the basic multilingual plane would need a
  surrogate pair; the model emits a single `\uXXXX` escape, which only
  affects inputs no claim touches.)
* `hashlib.sha256(key_str.encode()).hexdigest()` is modelled as the identity
  on `key_str`: the digest is a fixed deterministic function, so equalities
  of derived keys are exactly equalities of the serialized form (and
  distinctness holds up to hash collisions, which are outside the model).
-/

/-- A Python value that can be stored in a `variables` mapping.  `vobj name`
is a Python object with no JSON encoding (e.g. a `set`). -/
inductive PyVal where
  | vnull
  | vbool (b : Bool)
  | vint (n : Int)
  | vstr (s : String)
  | vlist (xs : List PyVal)
  | vdict (kvs : List (String × PyVal))
  | vobj (name : String)

/-- A Python `Dict[str, Any]` in construction order. -/
abbrev Vars := List (String × PyVal)

/-- The whitespace characters recognised by Python's `str.split()` (ASCII part). -/
def isPySpace (c : Char) : Bool :=
  c = ' ' || c = '\t' || c = '\n' || c = '\r' || c = '\x0b' || c = '\x0c'

/-- Python `str.split()` (no separator): maximal runs of non-whitespace,
`cur` is the current word accumulated in reverse. -/
def wordsAux : List Char → List Char → List (List Char)
  | [], cur => if cur.isEmpty then [] else [cur.reverse]
  | c :: rest, cur =>
    if isPySpace c then
      if cur.isEmpty then wordsAux rest [] else cur.reverse :: wordsAux rest []
    else
      wordsAux rest (c :: cur)

/-- Python `" ".join(words)`. -/
def joinWords (ws : List (List Char)) : List Char :=
  List.intercalate [' '] ws

/-- Python `" ".join(query.split())` — the query normalization in `_make_key`. -/
def normalizeQuery (s : String) : String :=
  ⟨joinWords (wordsAux s.data [])⟩

/-- Lower-case hex digit, as produced by `json.dumps` escapes. -/
def hexDigit (n : Nat) : Char :=
  if n < 10 then Char.ofNat (48 + n) else Char.ofNat (87 + n)

/-- Escaping of one character inside a JSON string literal
(`json.dumps` default: `ensure_ascii=True`). -/
def escapeChar (c : Char) : List Char :=
  if c = '"' then ['\\', '"']
  else if c = '\\' then ['\\', '\\']
  else if c = '\n' then ['\\', 'n']
  else if c = '\t' then ['\\', 't']
  else if c = '\r' then ['\\', 'r']
  else if c = '\x08' then ['\\', 'b']
  else if c = '\x0c' then ['\\', 'f']
  else if c.toNat < 0x20 || 0x7e < c.toNat then
    ['\\', 'u', hexDigit (c.toNat / 4096 % 16), hexDigit (c.toNat / 256 % 16),
     hexDigit (c.toNat / 16 % 16), hexDigit (c.toNat % 16)]
  else [c]

/-- Serialization `json.dumps` of a Python string. -/
def dumpsStr (s : String) : String :=
  ⟨'"' :: (s.data.map escapeChar).flatten ++ ['"']⟩

/-- Lexicographic comparison of strings by code points, the order Python's
`sorted` uses on `str` (acting on the character lists). -/
def charListLe : List Char → List Char → Bool
  | [], _ => true
  | _ :: _, [] => false
  | c :: cs, d :: ds => if c = d then charListLe cs ds else decide (c < d)

/-- Comparison `a <= b` on Python strings. -/
def strLe (a b : String) : Bool := charListLe a.data b.data

/-- Comparison of `(key, serialized value)` pairs by key, the order
`sort_keys=True` sorts object items into. -/
def keyLE (p q : String × String) : Prop := strLe p.1 q.1 = true

instance : DecidableRel keyLE := fun _ _ => inferInstanceAs (Decidable (_ = true))

/-- Sorting of the items of a JSON object by key (`sort_keys=True`). -/
def sortPairs (l : List (String × String)) : List (String × String) :=
  List.insertionSort keyLE l

mutual

/-- Serialization `json.dumps(v, sort_keys=True)`: `none` when a value has
no JSON encoding (Python raises `TypeError`). -/
def dumpsVal : PyVal → Option String
  | .vnull => some "null"
  | .vbool b => some (if b then "true" else "false")
  | .vint n => some (toString n)
  | .vstr s => some (dumpsStr s)
  | .vlist xs => do
      let ss ← dumpsArr xs
      some ("[" ++ String.intercalate ", " ss ++ "]")
  | .vdict kvs => do
      let ps ← dumpsPairs kvs
      some ("\x7b" ++ String.intercalate ", "
        ((sortPairs ps).map (fun p => dumpsStr p.1 ++ ": " ++ p.2)) ++ "\x7d")
  | .vobj _ => none
  termination_by structural v => v

/-- Serialize the elements of a JSON array in order. -/
def dumpsArr : List PyVal → Option (List String)
  | [] => some []
  | x :: xs => do
      let s ← dumpsVal x
      let ss ← dumpsArr xs
      some (s :: ss)
  termination_by structural l => l

/-- Serialize the values of a JSON object in construction order, keeping keys. -/
def dumpsPairs : List (String × PyVal) → Option (List (String × String))
  | [] => some []
  | (k, v) :: kvs => do
      let s ← dumpsVal v
      let ps ← dumpsPairs kvs
      some ((k, s) :: ps)
  termination_by structural l => l

end

/-- Method `QueryCache._make_key`: normalize the query, build
`{"query": …, "variables": variables or {}, "base_url": …}`, serialize it
with sorted keys, and hash it (hash modelled as identity, see the header).
`none` when serialization raises `TypeError`. -/
def _make_key (query : String) (vars : Option Vars) (base_url : String) :
    Option String :=
  dumpsVal (.vdict
    [("query", .vstr (normalizeQuery query)),
     ("variables", .vdict (vars.getD [])),
     ("base_url", .vstr base_url)])

/-- The error a failed key derivation raises (Python: `TypeError` from
`json.dumps`). -/
inductive PyError where
  | typeError (msg : String)
  deriving DecidableEq

/-- The cache object: configuration plus the ordered store
(oldest entry first, most recently used last). -/
structure QueryCache (α : Type) where
  max_size : Nat
  default_ttl : Int
  cache : List (String × (α × Int))
  deriving DecidableEq

/-- Remove the binding of `k` (other bindings keep their order):
`del self._cache[k]` / the removal half of `move_to_end`. -/
def odErase (l : List (String × β)) (k : String) : List (String × β) :=
  l.filter (fun p => p.1 != k)

namespace QueryCache

/-- Method `QueryCache.get`: derive the key; absent → `none`; expired
(`time.time() > expiry_time`) → delete and `none`; otherwise move to the
most-recently-used end and return the stored value. -/
def get (c : QueryCache α) (query : String) (vars : Option Vars)
    (base_url : String) (now : Int) :
    Except PyError (Option α × QueryCache α) :=
  match _make_key query vars base_url with
  | none => .error (.typeError "Object is not JSON serializable")
  | some key =>
    match c.cache.lookup key with
    | none => .ok (none, c)
    | some (result, expiry_time) =>
      if expiry_time < now then
        .ok (none, { c with cache := odErase c.cache key })
      else
        .ok (some result,
             { c with cache := odErase c.cache key ++ [(key, (result, expiry_time))] })

/-- Method `QueryCache.set`: derive the key, compute
`expiry = now + (ttl if ttl is not None else default_ttl)`, insert/overwrite
at the most-recently-used end, and pop the oldest item if over `max_size`. -/
def set (c : QueryCache α) (query : String) (vars : Option Vars)
    (base_url : String) (result : α) (ttl : Option Int) (now : Int) :
    Except PyError (QueryCache α) :=
  match _make_key query vars base_url with
  | none => .error (.typeError "Object is not JSON serializable")
  | some key =>
    let expiry_time := now + ttl.getD c.default_ttl
    let newCache := odErase c.cache key ++ [(key, (result, expiry_time))]
    .ok { c with cache := if c.max_size < newCache.length then newCache.tail else newCache }

/-- Method `QueryCache.clear`. -/
def clear (c : QueryCache α) : QueryCache α :=
  { c with cache := [] }

/-- Method `QueryCache.invalidate`: derive the key; delete it and return `True`
when present, return `False` otherwise. -/
def invalidate (c : QueryCache α) (query : String) (vars : Option Vars)
    (base_url : String) : Except PyError (Bool × QueryCache α) :=
  match _make_key query vars base_url with
  | none => .error (.typeError "Object is not JSON serializable")
  | some key =>
    if (c.cache.lookup key).isSome then
      .ok (true, { c with cache := odErase c.cache key })
    else
      .ok (false, c)

/-- The dictionary `QueryCache.stats` returns. -/
structure CacheStats where
  size : Nat
  max_size : Nat
  expired_items : Nat
  default_ttl : Int
  deriving DecidableEq

/-- Method `QueryCache.stats`: reads the store only; the second component is the
state the method leaves behind (it mutates nothing). -/
def stats (c : QueryCache α) (now : Int) : CacheStats × QueryCache α :=
  ({ size := c.cache.length,
     max_size := c.max_size,
     expired_items :=
       c.cache.foldl (fun acc p => if p.2.2 < now then acc + 1 else acc) 0,
     default_ttl := c.default_ttl }, c)

/-- The state after a `set` whose possible `TypeError` the caller swallows:
an exception raised in `_make_key` aborts the method before any mutation. -/
def runSet (c : QueryCache α) (query : String) (vars : Option Vars)
    (base_url : String) (result : α) (ttl : Option Int) (now : Int) :
    QueryCache α :=
  match c.set query vars base_url result ttl now with
  | .ok c' => c'
  | .error _ => c

/-- The state after a `get`, exceptions swallowed likewise. -/
def runGet (c : QueryCache α) (query : String) (vars : Option Vars)
    (base_url : String) (now : Int) : QueryCache α :=
  match c.get query vars base_url now with
  | .ok (_, c') => c'
  | .error _ => c

/-- The value a `get` returns (`none` on a miss or an exception). -/
def peek (c : QueryCache α) (query : String) (vars : Option Vars)
    (base_url : String) (now : Int) : Option α :=
  match c.get query vars base_url now with
  | .ok (r, _) => r
  | .error _ => none

end QueryCache

/-! ## Association-list lemmas about the ordered store -/

theorem lookup_odErase_self (l : List (String × β)) (k : String) :
    (odErase l k).lookup k = none := by
  induction l with
  | nil => rfl
  | cons p t ih =>
    by_cases h : p.1 = k
    · have he : odErase (p :: t) k = odErase t k := by
        simp [odErase, List.filter_cons, h]
      rw [he]; exact ih
    · have he : odErase (p :: t) k = p :: odErase t k := by
        simp [odErase, List.filter_cons, bne_iff_ne, h]
      rw [he, List.lookup_cons]
      simp only [beq_eq_false_iff_ne.mpr (fun hk => h hk.symm)]
      exact ih

theorem lookup_odErase_ne (l : List (String × β)) {k k' : String} (h : k' ≠ k) :
    (odErase l k).lookup k' = l.lookup k' := by
  induction l with
  | nil => rfl
  | cons p t ih =>
    by_cases hp : p.1 = k
    · have he : odErase (p :: t) k = odErase t k := by
        simp [odErase, List.filter_cons, hp]
      have hne : (k' == p.1) = false :=
        beq_eq_false_iff_ne.mpr (fun hk => h (by rw [hk, hp]))
      rw [he, List.lookup_cons, hne]
      exact ih
    · have he : odErase (p :: t) k = p :: odErase t k := by
        simp [odErase, List.filter_cons, bne_iff_ne, hp]
      rw [he, List.lookup_cons, List.lookup_cons]
      cases hk' : k' == p.1
      · exact ih
      · rfl

theorem lookup_append_right {l₁ l₂ : List (String × β)} {k : String}
    (h : l₁.lookup k = none) : (l₁ ++ l₂).lookup k = l₂.lookup k := by
  induction l₁ with
  | nil => rfl
  | cons p t ih =>
    rw [List.cons_append, List.lookup_cons]
    rw [List.lookup_cons] at h
    cases hk : k == p.1 with
    | false => rw [hk] at h; exact ih h
    | true => rw [hk] at h; exact absurd h (by simp)

/-- An entry just moved to the most-recently-used end is found by `lookup`. -/
theorem lookup_insertMRU (l : List (String × β)) (k : String) (x : β) :
    (odErase l k ++ [(k, x)]).lookup k = some x := by
  rw [lookup_append_right (lookup_odErase_self l k), List.lookup_cons]
  simp

theorem lookup_isSome_mem {l : List (String × β)} {k : String} {v : β}
    (h : l.lookup k = some v) : (k, v) ∈ l := by
  induction l with
  | nil => exact absurd h (by simp)
  | cons p t ih =>
    rw [List.lookup_cons] at h
    cases hk : k == p.1 with
    | false => rw [hk] at h; exact List.mem_cons_of_mem _ (ih h)
    | true =>
      rw [hk] at h
      cases h
      have : k = p.1 := beq_iff_eq.mp hk
      rw [this]
      exact List.mem_cons_self _ _

/-- Erasing a key that is not in the store changes nothing. -/
theorem odErase_not_mem {l : List (String × β)} {k : String}
    (h : k ∉ l.map Prod.fst) : odErase l k = l := by
  refine List.filter_eq_self.mpr fun p hp => ?_
  exact bne_iff_ne.mpr fun hpk => h (hpk ▸ List.mem_map_of_mem Prod.fst hp)

/-- Removing a present key from a store with no duplicate keys removes
exactly one entry. -/
theorem length_odErase_of_lookup {l : List (String × β)} {k : String} {v : β}
    (hnd : (l.map Prod.fst).Nodup) (h : l.lookup k = some v) :
    (odErase l k).length + 1 = l.length := by
  induction l with
  | nil => exact absurd h (by simp)
  | cons p t ih =>
    simp only [List.map_cons, List.nodup_cons] at hnd
    by_cases hk : k = p.1
    · subst hk
      have he : odErase (p :: t) p.1 = odErase t p.1 := by
        simp [odErase, List.filter_cons]
      rw [he, odErase_not_mem hnd.1]
      simp
    · have ht : t.lookup k = some v := by
        rw [List.lookup_cons, beq_eq_false_iff_ne.mpr hk] at h
        exact h
      have he : odErase (p :: t) k = p :: odErase t k := by
        simp only [odErase, List.filter_cons,
          bne_iff_ne.mpr (fun h' : p.1 = k => hk h'.symm), if_pos trivial]
      rw [he]
      simpa using ih hnd.2 ht

theorem lookup_append_left {l₁ l₂ : List (String × β)} {k : String} {v : β}
    (h : l₁.lookup k = some v) : (l₁ ++ l₂).lookup k = some v := by
  induction l₁ with
  | nil => exact absurd h (by simp)
  | cons p t ih =>
    rw [List.cons_append, List.lookup_cons]
    rw [List.lookup_cons] at h
    cases hk : k == p.1 with
    | false => rw [hk] at h; exact ih h
    | true => rw [hk] at h; exact h

/-- Lookup through an insert-at-the-MRU-end, for a different key. -/
theorem lookup_insertMRU_ne (l : List (String × β)) {k k' : String}
    (h : k' ≠ k) (x : β) :
    (odErase l k ++ [(k, x)]).lookup k' = l.lookup k' := by
  cases hl : (odErase l k).lookup k' with
  | some v => rw [lookup_append_left hl, ← lookup_odErase_ne l h, hl]
  | none =>
    rw [lookup_append_right hl, List.lookup_cons,
      beq_eq_false_iff_ne.mpr h]
    rw [← lookup_odErase_ne l h, hl]
    rfl

theorem lookup_cons_none {p : String × β} {t : List (String × β)} {k : String}
    (h : (p :: t).lookup k = none) : t.lookup k = none := by
  rw [List.lookup_cons] at h
  cases hk : k == p.1 with
  | false => rw [hk] at h; exact h
  | true => rw [hk] at h; cases h

/-- After an eviction of the oldest entry, the entry just inserted at the
MRU end is still found. -/
theorem lookup_insertMRU_tail {l₁ : List (String × β)} {k : String} {x : β}
    (hnone : l₁.lookup k = none) (hne : l₁ ≠ []) :
    ((l₁ ++ [(k, x)]).tail).lookup k = some x := by
  cases l₁ with
  | nil => exact absurd rfl hne
  | cons a es =>
    rw [List.cons_append, List.tail_cons]
    rw [lookup_append_right (lookup_cons_none hnone), List.lookup_cons]
    simp

/-- The running count in `stats` is the length of the filtered list. -/
theorem foldl_count_expired (l : List (String × (α × Int))) (now : Int) (n : Nat) :
    l.foldl (fun acc p => if p.2.2 < now then acc + 1 else acc) n
      = n + (l.filter (fun p => decide (p.2.2 < now))).length := by
  induction l generalizing n with
  | nil => simp
  | cons p t ih =>
    by_cases h : p.2.2 < now
    · rw [List.foldl_cons, if_pos h, ih, List.filter_cons]
      simp only [decide_eq_true_eq.mpr h, if_pos trivial, List.length_cons]
      omega
    · rw [List.foldl_cons, if_neg h, ih, List.filter_cons]
      simp only [decide_eq_false_iff_not.mpr h, Bool.false_eq_true,
        if_neg (fun hff : False => hff)]

/-- Successful `set` in one equation: erase the key, append the fresh entry
at the MRU end, evict the head when over capacity. -/
theorem set_ok {α : Type} (c : QueryCache α) (q : String) (v : Option Vars)
    (b : String) (r : α) (ttl : Option Int) (now : Int) {k : String}
    (hmk : _make_key q v b = some k) :
    c.set q v b r ttl now =
      .ok { c with cache :=
        if c.max_size < (odErase c.cache k ++ [(k, (r, now + ttl.getD c.default_ttl))]).length
        then (odErase c.cache k ++ [(k, (r, now + ttl.getD c.default_ttl))]).tail
        else odErase c.cache k ++ [(k, (r, now + ttl.getD c.default_ttl))] } := by
  simp only [QueryCache.set, hmk]

/-- C3: `get` returns absent on a missing key (cache untouched); on an
expired entry it removes exactly that entry and returns absent; on a live
entry it returns the stored value unmodified and moves the entry to the
most-recently-used end (other entries untouched). -/
theorem C3_get_semantics {α : Type} (c : QueryCache α) (q : String)
    (v : Option Vars) (b : String) (now : Int) (k : String)
    (hmk : _make_key q v b = some k) :
    (c.cache.lookup k = none → c.get q v b now = .ok (none, c)) ∧
    (∀ r e, c.cache.lookup k = some (r, e) → e < now →
      ∃ c₂, c.get q v b now = .ok (none, c₂) ∧
        c₂.cache.lookup k = none ∧
        (∀ k', k' ≠ k → c₂.cache.lookup k' = c.cache.lookup k') ∧
        c₂.cache.Sublist c.cache ∧
        c₂.max_size = c.max_size ∧ c₂.default_ttl = c.default_ttl) ∧
    (∀ r e, c.cache.lookup k = some (r, e) → now ≤ e →
      ∃ c₂, c.get q v b now = .ok (some r, c₂) ∧
        c₂.cache.getLast? = some (k, (r, e)) ∧
        c₂.cache.lookup k = some (r, e) ∧
        (∀ k', k' ≠ k → c₂.cache.lookup k' = c.cache.lookup k') ∧
        c₂.max_size = c.max_size ∧ c₂.default_ttl = c.default_ttl) := by
  refine ⟨fun hl => ?_, fun r e hl he => ?_, fun r e hl he => ?_⟩
  · simp only [QueryCache.get, hmk, hl]
  · refine ⟨{ c with cache := odErase c.cache k }, ?_, ?_, ?_, ?_, rfl, rfl⟩
    · simp only [QueryCache.get, hmk, hl, if_pos he]
    · exact lookup_odErase_self c.cache k
    · exact fun k' h => lookup_odErase_ne c.cache h
    · exact List.filter_sublist c.cache
  · refine ⟨{ c with cache := odErase c.cache k ++ [(k, (r, e))] },
      ?_, ?_, ?_, ?_, rfl, rfl⟩
    · simp only [QueryCache.get, hmk, hl, if_neg (not_lt.mpr he)]
    · exact List.getLast?_concat _
    · exact lookup_insertMRU c.cache k (r, e)
    · exact fun k' h => lookup_insertMRU_ne c.cache h (r, e)

/-- C7: `stats` is a pure read — it leaves the store exactly as it was —
and reports the current entry count, the count of entries whose expiry has
strictly passed, and the configured `max_size` and `default_ttl`. -/
theorem C7_stats_pure_read {α : Type} (c : QueryCache α) (now : Int) :
    (c.stats now).2 = c ∧
    (c.stats now).1.size = c.cache.length ∧
    (c.stats now).1.expired_items
      = (c.cache.filter (fun p => decide (p.2.2 < now))).length ∧
    (c.stats now).1.max_size = c.max_size ∧
    (c.stats now).1.default_ttl = c.default_ttl := by
  refine ⟨rfl, rfl, ?_, rfl, rfl⟩
  simpa using foldl_count_expired c.cache now 0

/-- Erasing a present key strictly shrinks the store. -/
theorem length_odErase_lt {l : List (String × β)} {k : String} {v : β}
    (h : l.lookup k = some v) : (odErase l k).length < l.length := by
  induction l with
  | nil => exact absurd h (by simp)
  | cons p t ih =>
    by_cases hk : k = p.1
    · have he : odErase (p :: t) k = odErase t k := by
        simp [odErase, List.filter_cons, hk.symm]
      rw [he]
      exact Nat.lt_succ_of_le (List.filter_sublist t).length_le
    · have ht : t.lookup k = some v := by
        rw [List.lookup_cons, beq_eq_false_iff_ne.mpr hk] at h
        exact h
      have he : odErase (p :: t) k = p :: odErase t k := by
        simp only [odErase, List.filter_cons,
          bne_iff_ne.mpr (fun h' : p.1 = k => hk h'.symm), if_pos trivial]
      rw [he, List.length_cons, List.length_cons]
      exact Nat.succ_lt_succ (ih ht)

/-- The entry a successful `set` wrote is retrievable under its key, with
the computed expiry, as long as the capacity is positive. -/
theorem lookup_after_set_ok {α : Type} {c c' : QueryCache α} {q : String}
    {v : Option Vars} {b : String} {r : α} {ttl : Option Int} {now : Int}
    {k : String} (hmk : _make_key q v b = some k) (hpos : 0 < c.max_size)
    (hs : c.set q v b r ttl now = .ok c') :
    c'.cache.lookup k = some (r, now + ttl.getD c.default_ttl) := by
  rw [set_ok c q v b r ttl now hmk] at hs
  cases hs
  by_cases hlen :
      c.max_size < (odErase c.cache k ++ [(k, (r, now + ttl.getD c.default_ttl))]).length
  · simp only [if_pos hlen]
    have hne : odErase c.cache k ≠ [] := by
      intro hnil
      rw [hnil] at hlen
      simp at hlen
      omega
    exact lookup_insertMRU_tail (lookup_odErase_self c.cache k) hne
  · simp only [if_neg hlen]
    exact lookup_insertMRU c.cache k _

/-- C4: the stored expiry is `now + ttl` when a ttl is passed and
`now + default_ttl` otherwise; an entry set with `ttl = 0` is absent for
every strictly later `get`. -/
theorem C4_expiry_computation {α : Type} (c : QueryCache α) (q : String)
    (v : Option Vars) (b : String) (r : α) (now : Int) (k : String)
    (hmk : _make_key q v b = some k) (hpos : 0 < c.max_size) :
    (∀ t c', c.set q v b r (some t) now = .ok c' →
      c'.cache.lookup k = some (r, now + t)) ∧
    (∀ c', c.set q v b r none now = .ok c' →
      c'.cache.lookup k = some (r, now + c.default_ttl)) ∧
    (∀ c' now', c.set q v b r (some 0) now = .ok c' → now < now' →
      ∃ c₂, c'.get q v b now' = .ok (none, c₂)) := by
    refine ⟨fun t c' hs => lookup_after_set_ok hmk hpos hs,
      fun c' hs => lookup_after_set_ok hmk hpos hs,
      fun c' now' hs hlt => ?_⟩
    have hl : c'.cache.lookup k = some (r, now) := by
      have := lookup_after_set_ok hmk hpos hs
      simpa using this
    exact ⟨{ c' with cache := odErase c'.cache k },
      by simp only [QueryCache.get, hmk, hl, if_pos hlt]⟩

/-- C8: `invalidate` removes exactly the derived key and returns `True`
when present (other entries and their order untouched); it returns `False`
and changes nothing when absent. -/
theorem C8_invalidate_semantics {α : Type} (c : QueryCache α) (q : String)
    (v : Option Vars) (b : String) (k : String)
    (hmk : _make_key q v b = some k) :
    (∀ r e, c.cache.lookup k = some (r, e) →
      ∃ c', c.invalidate q v b = .ok (true, c') ∧
        c'.cache.lookup k = none ∧
        (∀ k', k' ≠ k → c'.cache.lookup k' = c.cache.lookup k') ∧
        c'.cache.Sublist c.cache ∧
        ((c.cache.map Prod.fst).Nodup → c'.cache.length + 1 = c.cache.length) ∧
        c'.max_size = c.max_size ∧ c'.default_ttl = c.default_ttl) ∧
    (c.cache.lookup k = none → c.invalidate q v b = .ok (false, c)) := by
  constructor
  · intro r e hl
    refine ⟨{ c with cache := odErase c.cache k }, ?_, ?_, ?_, ?_, ?_, rfl, rfl⟩
    · simp [QueryCache.invalidate, hmk, hl]
    · exact lookup_odErase_self c.cache k
    · exact fun k' h => lookup_odErase_ne c.cache h
    · exact List.filter_sublist c.cache
    · exact fun hnd => length_odErase_of_lookup hnd hl
  · intro hl
    simp only [QueryCache.invalidate, hmk, hl, Option.isSome_none]
    rfl

/-- C9: when key derivation fails (non-serializable variables), `set` and
`get` raise a `TypeError` and the cache is left exactly as it was: nothing
is inserted, evicted, or reordered. -/
theorem C9_failed_key_derivation {α : Type} (c : QueryCache α) (q : String)
    (v : Option Vars) (b : String) (r : α) (ttl : Option Int) (now : Int)
    (hmk : _make_key q v b = none) :
    c.set q v b r ttl now
      = .error (.typeError "Object is not JSON serializable") ∧
    c.runSet q v b r ttl now = c ∧
    c.get q v b now
      = .error (.typeError "Object is not JSON serializable") ∧
    c.runGet q v b now = c ∧
    c.peek q v b now = none := by
  have hs : c.set q v b r ttl now
      = .error (.typeError "Object is not JSON serializable") := by
    simp only [QueryCache.set, hmk]
  have hg : c.get q v b now
      = .error (.typeError "Object is not JSON serializable") := by
    simp only [QueryCache.get, hmk]
  exact ⟨hs, by simp only [QueryCache.runSet, hs], hg,
    by simp only [QueryCache.runGet, hg], by simp only [QueryCache.peek, hg]⟩

/-- C10: expiry comparison is strict — a `get` at a time equal to (or below)
the entry's expiry returns the value; the entry is reported absent only
when the current time strictly exceeds its expiry; `stats` counts no entry
whose expiry has not strictly passed. -/
theorem C10_expiry_is_strict {α : Type} (c : QueryCache α) (q : String)
    (v : Option Vars) (b : String) (now : Int) (k : String) (r : α) (e : Int)
    (hmk : _make_key q v b = some k)
    (hl : c.cache.lookup k = some (r, e)) :
    ((∃ c₂, c.get q v b now = .ok (some r, c₂)) ↔ now ≤ e) ∧
    ((∀ p ∈ c.cache, now ≤ p.2.2) → (c.stats now).1.expired_items = 0) := by
  constructor
  · constructor
    · rintro ⟨c₂, hc⟩
      by_contra hgt
      rw [QueryCache.get] at hc
      simp only [hmk, hl, if_pos (lt_of_not_le hgt)] at hc
      cases hc
    · intro h
      exact ⟨{ c with cache := odErase c.cache k ++ [(k, (r, e))] },
        by simp only [QueryCache.get, hmk, hl, if_neg (not_lt.mpr h)]⟩
  · intro h
    have : (c.cache.filter (fun p => decide (p.2.2 < now))).length = 0 := by
      rw [List.length_eq_zero]
      refine List.filter_eq_nil_iff.mpr fun p hp => ?_
      simp only [decide_eq_true_eq]
      exact not_lt.mpr (h p hp)
    simp only [QueryCache.stats]
    rw [foldl_count_expired]
    simpa using this

/-- C2: starting from any state within capacity, every public operation
leaves the store within capacity, and a `set` whose insertion stays within
capacity evicts nothing (every key present before is present after). -/
theorem C2_capacity_preserved {α : Type} (c : QueryCache α)
    (_hpos : 0 < c.max_size) (hb : c.cache.length ≤ c.max_size) :
    (∀ q v b r ttl now c', c.set q v b r ttl now = .ok c' →
      c'.cache.length ≤ c.max_size) ∧
    (∀ q v b now x c', c.get q v b now = .ok (x, c') →
      c'.cache.length ≤ c.max_size) ∧
    (∀ q v b x c', c.invalidate q v b = .ok (x, c') →
      c'.cache.length ≤ c.max_size) ∧
    c.clear.cache.length ≤ c.max_size ∧
    (∀ now, (c.stats now).2.cache.length ≤ c.max_size) ∧
    (∀ q v b r ttl now k c', _make_key q v b = some k →
      (odErase c.cache k).length + 1 ≤ c.max_size →
      c.set q v b r ttl now = .ok c' →
      ∀ k', (c.cache.lookup k').isSome → (c'.cache.lookup k').isSome) := by
  have herase : ∀ k, (odErase c.cache k).length ≤ c.max_size :=
    fun k => le_trans (List.filter_sublist c.cache).length_le hb
  refine ⟨?_, ?_, ?_, ?_, fun _ => hb, ?_⟩
  · intro q v b r ttl now c' hs
    cases hmk : _make_key q v b with
    | none => rw [QueryCache.set, hmk] at hs; cases hs
    | some k =>
      rw [set_ok c q v b r ttl now hmk] at hs
      cases hs
      by_cases hlen : c.max_size <
          (odErase c.cache k ++ [(k, (r, now + ttl.getD c.default_ttl))]).length
      · rw [if_pos hlen, List.length_tail]
        have hek := herase k
        simp only [List.length_append, List.length_singleton]
        omega
      · rw [if_neg hlen]
        exact not_lt.mp hlen
  · intro q v b now x c' hg
    cases hmk : _make_key q v b with
    | none => simp only [QueryCache.get, hmk] at hg; cases hg
    | some k =>
      simp only [QueryCache.get, hmk] at hg
      cases hl : c.cache.lookup k with
      | none => simp only [hl] at hg; cases hg; exact hb
      | some re =>
        obtain ⟨rr, ee⟩ := re
        simp only [hl] at hg
        by_cases he : ee < now
        · rw [if_pos he] at hg
          cases hg
          exact herase k
        · rw [if_neg he] at hg
          cases hg
          simp only [List.length_append, List.length_singleton]
          have : (odErase c.cache k).length < c.cache.length :=
            length_odErase_lt hl
          omega
  · intro q v b x c' hi
    cases hmk : _make_key q v b with
    | none => simp only [QueryCache.invalidate, hmk] at hi; cases hi
    | some k =>
      simp only [QueryCache.invalidate, hmk] at hi
      by_cases hl : (c.cache.lookup k).isSome
      · rw [if_pos hl] at hi
        cases hi
        exact herase k
      · rw [if_neg hl] at hi
        cases hi
        exact hb
  · simp [QueryCache.clear]
  · intro q v b r ttl now k c' hmk hfit hs
    rw [set_ok c q v b r ttl now hmk] at hs
    cases hs
    have hnotlt : ¬ c.max_size <
        (odErase c.cache k ++ [(k, (r, now + ttl.getD c.default_ttl))]).length := by
      simp only [List.length_append, List.length_singleton]
      omega
    simp only [if_neg hnotlt]
    intro k' hk'
    by_cases heq : k' = k
    · subst heq
      rw [lookup_insertMRU]
      rfl
    · rw [lookup_insertMRU_ne c.cache heq]
      exact hk'

/-- C1: a `set` whose insertion would leave the store over capacity removes
exactly one entry — the head of the recency order, i.e. the
least-recently-used one, whatever its expiry — and the spec's end-to-end
scenario: `max_size = 3`, insert k1, k2, k3, `get k1`, insert k4 — then k2
is evicted while k1, k3, k4 are present. -/
theorem C1_lru_eviction :
    (∀ (α : Type) (c : QueryCache α) (q : String) (v : Option Vars)
      (b : String) (r : α) (ttl : Option Int) (now : Int) (k : String),
      _make_key q v b = some k → 0 < c.max_size →
      c.max_size < (odErase c.cache k).length + 1 →
      ∃ ev rest, odErase c.cache k = ev :: rest ∧
        c.set q v b r ttl now =
          .ok { c with cache :=
            rest ++ [(k, (r, now + ttl.getD c.default_ttl))] }) ∧
    ((let c0 : QueryCache Nat := ⟨3, 300, []⟩
      let c1 := c0.runSet "k1" none "u" 1 none 0
      let c2 := c1.runSet "k2" none "u" 2 none 0
      let c3 := c2.runSet "k3" none "u" 3 none 0
      let c4 := c3.runGet "k1" none "u" 0
      let c5 := c4.runSet "k4" none "u" 4 none 0
      (c5.peek "k1" none "u" 0, c5.peek "k2" none "u" 0,
       c5.peek "k3" none "u" 0, c5.peek "k4" none "u" 0, c5.cache.length))
      = (some 1, none, some 3, some 4, 3)) := by
  constructor
  · intro α c q v b r ttl now k hmk hpos hover
    cases herase : odErase c.cache k with
    | nil => rw [herase] at hover; simp at hover; omega
    | cons ev rest =>
      refine ⟨ev, rest, rfl, ?_⟩
      rw [set_ok c q v b r ttl now hmk, herase]
      have hlen : c.max_size <
          ((ev :: rest) ++ [(k, (r, now + ttl.getD c.default_ttl))]).length := by
        rw [herase] at hover
        simp only [List.cons_append, List.length_cons, List.length_append,
          List.length_singleton]
        rw [List.length_cons] at hover
        omega
      rw [if_pos hlen]
      rfl
  · decide

/-! ## Structural key derivation (C5): sorting is permutation-invariant -/

theorem charListLe_total : ∀ a b : List Char,
    charListLe a b = true ∨ charListLe b a = true
  | [], _ => Or.inl rfl
  | _ :: _, [] => Or.inr rfl
  | x :: xs, y :: ys => by
    by_cases hxy : x = y
    · subst hxy
      rcases charListLe_total xs ys with h | h
      · exact Or.inl (by simpa [charListLe] using h)
      · exact Or.inr (by simpa [charListLe] using h)
    · rcases lt_or_gt_of_ne hxy with h | h
      · refine Or.inl ?_
        simp only [charListLe, if_neg hxy]
        exact decide_eq_true h
      · refine Or.inr ?_
        simp only [charListLe, if_neg (fun e : y = x => hxy e.symm)]
        exact decide_eq_true h

theorem charListLe_trans : ∀ a b c : List Char,
    charListLe a b = true → charListLe b c = true → charListLe a c = true
  | [], _, _ => fun _ _ => rfl
  | x :: xs, [], _ => fun h _ => by simp [charListLe] at h
  | _ :: _, _ :: _, [] => fun _ h => by simp [charListLe] at h
  | x :: xs, y :: ys, z :: zs => by
    by_cases hxy : x = y <;> by_cases hyz : y = z
    · subst hxy; subst hyz
      intro h1 h2
      simp only [charListLe, if_pos rfl] at h1 h2 ⊢
      exact charListLe_trans xs ys zs h1 h2
    · subst hxy
      intro _ h2
      simp only [charListLe, if_pos rfl] at *
      simpa [charListLe, hyz] using h2
    · subst hyz
      intro h1 _
      simpa [charListLe, hxy] using h1
    · intro h1 h2
      simp only [charListLe, if_neg hxy, decide_eq_true_eq] at h1
      simp only [charListLe, if_neg hyz, decide_eq_true_eq] at h2
      have hxz : x < z := lt_trans h1 h2
      simp [charListLe, ne_of_lt hxz, hxz]

theorem charListLe_antisymm : ∀ a b : List Char,
    charListLe a b = true → charListLe b a = true → a = b
  | [], [] => fun _ _ => rfl
  | [], _ :: _ => fun _ h => by simp [charListLe] at h
  | _ :: _, [] => fun h _ => by simp [charListLe] at h
  | x :: xs, y :: ys => by
    by_cases hxy : x = y
    · subst hxy
      intro h1 h2
      simp only [charListLe, if_pos rfl] at h1 h2
      rw [charListLe_antisymm xs ys h1 h2]
    · intro h1 h2
      simp only [charListLe, if_neg hxy, decide_eq_true_eq] at h1
      simp only [charListLe, if_neg (fun e : y = x => hxy e.symm),
        decide_eq_true_eq] at h2
      exact absurd h2 (lt_asymm h1)

instance : IsTotal (String × String) keyLE :=
  ⟨fun p q => charListLe_total p.1.data q.1.data⟩

instance : IsTrans (String × String) keyLE :=
  ⟨fun p q u h1 h2 => charListLe_trans p.1.data q.1.data u.1.data h1 h2⟩

/-- The strict version of `keyLE`, used to show sorted permutations agree. -/
def keyLT (p q : String × String) : Prop := keyLE p q ∧ p.1 ≠ q.1

instance : IsAntisymm (String × String) keyLT :=
  ⟨fun p q h1 h2 => by
    have hd : p.1.data = q.1.data := charListLe_antisymm _ _ h1.1 h2.1
    exact absurd (String.toList_inj.mp hd) h1.2⟩

/-- A `keyLE`-sorted list with pairwise-distinct keys is strictly sorted. -/
theorem sorted_keyLT {l : List (String × String)}
    (hs : List.Sorted keyLE l) (hnd : (l.map Prod.fst).Nodup) :
    List.Sorted keyLT l := by
  have hne : List.Pairwise (fun p q : String × String => p.1 ≠ q.1) l :=
    List.pairwise_map.mp hnd
  exact (hs.and hne).imp fun h => ⟨h.1, h.2⟩

/-- Sorting by key maps permuted inputs with distinct keys to the same
output: the heart of `sort_keys=True` determinism. -/
theorem sortPairs_perm_eq {p₁ p₂ : List (String × String)}
    (hperm : p₁.Perm p₂) (hnd : (p₁.map Prod.fst).Nodup) :
    sortPairs p₁ = sortPairs p₂ := by
  have hperm' : (sortPairs p₁).Perm (sortPairs p₂) :=
    ((List.perm_insertionSort keyLE p₁).trans hperm).trans
      (List.perm_insertionSort keyLE p₂).symm
  have hnd₁ : ((sortPairs p₁).map Prod.fst).Nodup :=
    (((List.perm_insertionSort keyLE p₁).symm).map Prod.fst).nodup hnd
  have hnd₂ : ((sortPairs p₂).map Prod.fst).Nodup :=
    (hperm'.map Prod.fst).nodup hnd₁
  exact List.eq_of_perm_of_sorted hperm'
    (sorted_keyLT (List.sorted_insertionSort keyLE p₁) hnd₁)
    (sorted_keyLT (List.sorted_insertionSort keyLE p₂) hnd₂)

/-- Serialization of the items of an object, under permutation of the
items: both fail, or both succeed with permuted results. -/
theorem dumpsPairs_perm {v₁ v₂ : List (String × PyVal)} (hperm : v₁.Perm v₂) :
    (dumpsPairs v₁ = none ∧ dumpsPairs v₂ = none) ∨
    (∃ p₁ p₂, dumpsPairs v₁ = some p₁ ∧ dumpsPairs v₂ = some p₂ ∧ p₁.Perm p₂) := by
  induction hperm with
  | nil => exact Or.inr ⟨[], [], rfl, rfl, .nil⟩
  | cons x h ih =>
    rcases x with ⟨k, v⟩
    cases hv : dumpsVal v with
    | none => exact Or.inl ⟨by simp [dumpsPairs, hv], by simp [dumpsPairs, hv]⟩
    | some s =>
      rcases ih with ⟨h1, h2⟩ | ⟨p₁, p₂, h1, h2, hp⟩
      · exact Or.inl ⟨by simp [dumpsPairs, hv, h1], by simp [dumpsPairs, hv, h2]⟩
      · exact Or.inr ⟨(k, s) :: p₁, (k, s) :: p₂,
          by simp [dumpsPairs, hv, h1], by simp [dumpsPairs, hv, h2], hp.cons _⟩
  | swap x y l =>
    rcases x with ⟨kx, vx⟩
    rcases y with ⟨ky, vy⟩
    cases hx : dumpsVal vx with
    | none =>
      cases hy : dumpsVal vy with
      | none => exact Or.inl ⟨by simp [dumpsPairs, hx, hy], by simp [dumpsPairs, hx, hy]⟩
      | some sy => exact Or.inl ⟨by simp [dumpsPairs, hx, hy], by simp [dumpsPairs, hx, hy]⟩
    | some sx =>
      cases hy : dumpsVal vy with
      | none => exact Or.inl ⟨by simp [dumpsPairs, hx, hy], by simp [dumpsPairs, hx, hy]⟩
      | some sy =>
        cases hl : dumpsPairs l with
        | none => exact Or.inl ⟨by simp [dumpsPairs, hx, hy, hl], by simp [dumpsPairs, hx, hy, hl]⟩
        | some ps =>
          exact Or.inr ⟨(ky, sy) :: (kx, sx) :: ps, (kx, sx) :: (ky, sy) :: ps,
            by simp [dumpsPairs, hx, hy, hl], by simp [dumpsPairs, hx, hy, hl],
            List.Perm.swap _ _ _⟩
  | trans h12 h23 ih1 ih2 =>
    rcases ih1 with ⟨h1, h2⟩ | ⟨p₁, p₂, h1, h2, hp⟩
    · rcases ih2 with ⟨h3, h4⟩ | ⟨p₃, p₄, h3, h4, hq⟩
      · exact Or.inl ⟨h1, h4⟩
      · rw [h2] at h3; cases h3
    · rcases ih2 with ⟨h3, h4⟩ | ⟨p₃, p₄, h3, h4, hq⟩
      · rw [h2] at h3; cases h3
      · rw [h2] at h3
        cases h3
        exact Or.inr ⟨p₁, p₄, h1, h4, hp.trans hq⟩

/-- Serialization does not change the keys of the items. -/
theorem dumpsPairs_keys : ∀ {l : List (String × PyVal)} {p},
    dumpsPairs l = some p → p.map Prod.fst = l.map Prod.fst := by
  intro l
  induction l with
  | nil => intro p h; simp only [dumpsPairs] at h; cases h; rfl
  | cons x t ih =>
    rcases x with ⟨k, v⟩
    intro p h
    cases hv : dumpsVal v with
    | none => simp [dumpsPairs, hv] at h
    | some s =>
      cases hp : dumpsPairs t with
      | none => simp [dumpsPairs, hv, hp] at h
      | some ps =>
        simp only [dumpsPairs, hv, hp, Option.some_bind] at h
        cases h
        simp [ih hp]

/-- C5: key derivation is structural in the variables — permuting the
key/value pairs of the variables mapping (distinct keys, as in a Python
dict) yields the same CacheKey, and absent variables derive the same key
as an empty mapping. -/
theorem C5_structural_variables (q b : String) :
    (∀ v₁ v₂ : Vars, v₁.Perm v₂ → (v₁.map Prod.fst).Nodup →
      _make_key q (some v₁) b = _make_key q (some v₂) b) ∧
    _make_key q none b = _make_key q (some []) b := by
  constructor
  · intro v₁ v₂ hperm hnd
    rcases dumpsPairs_perm hperm with ⟨h1, h2⟩ | ⟨p₁, p₂, h1, h2, hp⟩
    · simp [_make_key, dumpsVal, dumpsPairs, h1, h2]
    · have hk1 : p₁.map Prod.fst = v₁.map Prod.fst := dumpsPairs_keys h1
      have hs : sortPairs p₁ = sortPairs p₂ :=
        sortPairs_perm_eq hp (by rw [hk1]; exact hnd)
      simp [_make_key, dumpsVal, dumpsPairs, h1, h2, hs]
  · rfl

/-! ## Whitespace normalization (C6): the spec's collapse-and-trim
description agrees with the code's `" ".join(query.split())` -/

/-- Drop trailing whitespace. -/
def trimRight : List Char → List Char
  | [] => []
  | c :: cs =>
    match trimRight cs with
    | [] => if isPySpace c then [] else [c]
    | r => c :: r

/-- Collapse every run of whitespace to a single space; with the flag set,
a run is dropped instead (used for a leading run). -/
def collapseAux : Bool → List Char → List Char
  | _, [] => []
  | prevSpace, c :: cs =>
    if isPySpace c then
      if prevSpace then collapseAux true cs else ' ' :: collapseAux true cs
    else c :: collapseAux false cs

/-- The spec's description of query normalization: consecutive whitespace
collapsed to single spaces, leading/trailing whitespace trimmed. -/
def collapseWS (s : String) : String :=
  ⟨trimRight (collapseAux true s.data)⟩

theorem trimRight_cons_nonspace {c : Char} (h : isPySpace c = false)
    (cs : List Char) : trimRight (c :: cs) = c :: trimRight cs := by
  rw [trimRight]
  cases trimRight cs with
  | nil => simp [h]
  | cons x xs => rfl

theorem trimRight_cons_space_nil {c : Char} (h : isPySpace c = true)
    {cs : List Char} (hnil : trimRight cs = []) : trimRight (c :: cs) = [] := by
  rw [trimRight, hnil, h]
  rfl

theorem trimRight_cons_space {c : Char} (_h : isPySpace c = true)
    {cs : List Char} (hne : trimRight cs ≠ []) :
    trimRight (c :: cs) = c :: trimRight cs := by
  rw [trimRight]
  cases htr : trimRight cs with
  | nil => exact absurd htr hne
  | cons x xs => rfl

/-- Every word produced by `str.split()` is nonempty. -/
theorem wordsAux_ne_nil : ∀ (cs cur : List Char), ∀ w ∈ wordsAux cs cur,
    w ≠ [] := by
  intro cs
  induction cs with
  | nil =>
    intro cur w hw
    rw [wordsAux] at hw
    by_cases hcur : cur.isEmpty
    · rw [if_pos hcur] at hw
      cases hw
    · rw [if_neg hcur, List.mem_singleton] at hw
      subst hw
      intro hnil
      rw [List.reverse_eq_nil_iff] at hnil
      exact hcur (by simp [hnil])
  | cons c rest ih =>
    intro cur w hw
    rw [wordsAux] at hw
    by_cases hc : isPySpace c
    · rw [if_pos hc] at hw
      by_cases hcur : cur.isEmpty
      · rw [if_pos hcur] at hw
        exact ih [] w hw
      · rw [if_neg hcur] at hw
        rcases List.mem_cons.mp hw with hw | hw
        · subst hw
          intro hnil
          rw [List.reverse_eq_nil_iff] at hnil
          exact hcur (by simp [hnil])
        · exact ih [] w hw
    · rw [if_neg hc] at hw
      exact ih (c :: cur) w hw

theorem joinWords_single (w : List Char) : joinWords [w] = w := by
  simp [joinWords, List.intercalate]

theorem joinWords_cons₂ (w₁ w₂ : List Char) (ws : List (List Char)) :
    joinWords (w₁ :: w₂ :: ws) = w₁ ++ ' ' :: joinWords (w₂ :: ws) := by
  simp [joinWords, List.intercalate]

theorem joinWords_ne_nil {w : List Char} (hw : w ≠ []) (ws : List (List Char)) :
    joinWords (w :: ws) ≠ [] := by
  cases ws with
  | nil => rw [joinWords_single]; exact hw
  | cons w₂ ws' =>
    rw [joinWords_cons₂]
    intro h
    rcases List.append_eq_nil.mp h with ⟨h1, h2⟩
    cases h2

/-- Joint induction: collapse-and-trim produces exactly the space-joined
split words, both from the initial state and from inside a word. -/
theorem collapse_words : ∀ cs : List Char,
    trimRight (collapseAux true cs) = joinWords (wordsAux cs []) ∧
    ∀ cur : List Char, cur ≠ [] →
      cur.reverse ++ trimRight (collapseAux false cs)
        = joinWords (wordsAux cs cur) := by
  intro cs
  induction cs with
  | nil =>
    refine ⟨rfl, fun cur hcur => ?_⟩
    rw [collapseAux, trimRight, wordsAux,
      if_neg (fun h => hcur (List.isEmpty_iff.mp h)), joinWords_single,
      List.append_nil]
  | cons c rest ih =>
    by_cases hc : isPySpace c = true
    · constructor
      · show trimRight (collapseAux true (c :: rest))
            = joinWords (wordsAux (c :: rest) [])
        rw [collapseAux, if_pos hc, if_pos rfl, wordsAux, if_pos hc,
          List.isEmpty_nil, if_pos rfl]
        exact ih.1
      · intro cur hcur
        rw [collapseAux, if_pos hc, if_neg Bool.false_ne_true, wordsAux,
          if_pos hc, if_neg (fun h => hcur (List.isEmpty_iff.mp h))]
        cases hws : wordsAux rest [] with
        | nil =>
          have htr : trimRight (collapseAux true rest) = [] := by
            rw [ih.1, hws]
            rfl
          rw [trimRight_cons_space_nil (by decide) htr, joinWords_single,
            List.append_nil]
        | cons w ws =>
          have hw : w ≠ [] :=
            wordsAux_ne_nil rest [] w (by rw [hws]; exact List.mem_cons_self _ _)
          have htrne : trimRight (collapseAux true rest) ≠ [] := by
            rw [ih.1, hws]
            exact joinWords_ne_nil hw ws
          rw [trimRight_cons_space (by decide) htrne, ih.1, hws,
            joinWords_cons₂]
    · have hcf : isPySpace c = false := by simpa using hc
      constructor
      · show trimRight (collapseAux true (c :: rest))
            = joinWords (wordsAux (c :: rest) [])
        rw [collapseAux, if_neg hc, trimRight_cons_nonspace hcf, wordsAux,
          if_neg hc]
        have h2 := ih.2 [c] (by simp)
        simpa using h2
      · intro cur hcur
        rw [collapseAux, if_neg hc, trimRight_cons_nonspace hcf, wordsAux,
          if_neg hc]
        have h2 := ih.2 (c :: cur) (List.cons_ne_nil c cur)
        rw [← h2, List.reverse_cons, List.append_assoc]
        rfl

/-- The spec's collapse-and-trim normalization is exactly the code's
`" ".join(query.split())`. -/
theorem collapseWS_eq_normalizeQuery (s : String) :
    collapseWS s = normalizeQuery s :=
  congrArg String.mk (collapse_words s.data).1

/-- C6: two query texts equal after collapsing each whitespace run to one
space and trimming derive the same CacheKey (for the same variables and
endpoint); hence a value `set` under one formatting is returned by a `get`
under the other, as in the spec's reformatting examples. -/
theorem C6_whitespace_normalization :
    (∀ (q₁ q₂ : String) (v : Option Vars) (b : String),
      collapseWS q₁ = collapseWS q₂ →
      _make_key q₁ v b = _make_key q₂ v b) ∧
    (∀ (α : Type) (c c' : QueryCache α) (v : Option Vars) (b : String)
      (r : α) (now : Int),
      0 < c.max_size → 0 ≤ c.default_ttl →
      c.set "query \x7b test \x7d" v b r none now = .ok c' →
      (∃ c₂, c'.get "query  \x7b  test  \x7d" v b now = .ok (some r, c₂)) ∧
      (∃ c₂, c'.get "query\n\x7b\n test\n\x7d" v b now = .ok (some r, c₂))) := by
  constructor
  · intro q₁ q₂ v b h
    have hn : normalizeQuery q₁ = normalizeQuery q₂ := by
      rw [← collapseWS_eq_normalizeQuery, ← collapseWS_eq_normalizeQuery, h]
    simp only [_make_key, hn]
  · intro α c c' v b r now hpos httl hset
    cases hmk : _make_key "query \x7b test \x7d" v b with
    | none => rw [QueryCache.set, hmk] at hset; cases hset
    | some k =>
      have hl : c'.cache.lookup k = some (r, now + c.default_ttl) := by
        have := lookup_after_set_ok hmk hpos hset
        simpa using this
      have hnl : ¬ (now + c.default_ttl < now) := by omega
      constructor
      · have hn : normalizeQuery "query  \x7b  test  \x7d"
            = normalizeQuery "query \x7b test \x7d" := by decide
        have hmk2 : _make_key "query  \x7b  test  \x7d" v b = some k := by
          rw [show _make_key "query  \x7b  test  \x7d" v b
              = _make_key "query \x7b test \x7d" v b by simp only [_make_key, hn]]
          exact hmk
        refine ⟨{ c' with cache := odErase c'.cache k ++ [(k, (r, now + c.default_ttl))] }, ?_⟩
        simp only [QueryCache.get, hmk2, hl, if_neg hnl]
      · have hn : normalizeQuery "query\n\x7b\n test\n\x7d"
            = normalizeQuery "query \x7b test \x7d" := by decide
        have hmk2 : _make_key "query\n\x7b\n test\n\x7d" v b = some k := by
          rw [show _make_key "query\n\x7b\n test\n\x7d" v b
              = _make_key "query \x7b test \x7d" v b by simp only [_make_key, hn]]
          exact hmk
        refine ⟨{ c' with cache := odErase c'.cache k ++ [(k, (r, now + c.default_ttl))] }, ?_⟩
        simp only [QueryCache.get, hmk2, hl, if_neg hnl]

/-- The derived key for query `"q"`, no variables, endpoint `"u"`
(the serialized form; the hash is modelled as the identity). -/
def kq : String :=
  "\x7b\"base_url\": \"u\", \"query\": \"q\", \"variables\": \x7b\x7d\x7d"

/-- Concrete instance of C1: a full store of capacity 1 evicts its sole
(LRU) entry on the next distinct `set`. -/
theorem C1_witness :
    ∃ ev rest, odErase [("A", ((5 : Nat), (10 : Int)))] kq = ev :: rest ∧
      QueryCache.set ⟨1, 300, [("A", (5, 10))]⟩ "q" none "u" 7 none 0 =
        .ok ⟨1, 300, rest ++ [(kq, (7, (0 : Int) + 300))]⟩ :=
  C1_lru_eviction.1 Nat ⟨1, 300, [("A", (5, 10))]⟩ "q" none "u" 7 none 0
    kq (by decide) (by decide) (by decide)

/-- Concrete instance of C2: a `set` on a store of size 1, capacity 2,
leaves at most 2 entries. -/
theorem C2_witness :
    (QueryCache.runSet (⟨2, 300, [("A", ((5 : Nat), (10 : Int)))]⟩ : QueryCache Nat)
      "q" none "u" 7 none 0).cache.length ≤ 2 :=
  (C2_capacity_preserved ⟨2, 300, [("A", (5, 10))]⟩ (by decide) (by decide)).1
    "q" none "u" 7 none 0 _ rfl

/-- Concrete instances of C3's three cases: miss, expired entry purged,
live entry returned. -/
theorem C3_witness :
    (QueryCache.get (⟨2, 300, []⟩ : QueryCache Nat) "q" none "u" 0
      = .ok (none, ⟨2, 300, []⟩)) ∧
    (∃ c₂, QueryCache.get (⟨2, 300, [(kq, (7, 5))]⟩ : QueryCache Nat)
      "q" none "u" 9 = .ok (none, c₂)) ∧
    (∃ c₂, QueryCache.get (⟨2, 300, [(kq, (7, 5))]⟩ : QueryCache Nat)
      "q" none "u" 4 = .ok (some 7, c₂)) := by
  refine ⟨?_, ?_, ?_⟩
  · exact (C3_get_semantics ⟨2, 300, []⟩ "q" none "u" 0 kq (by decide)).1
      (by decide)
  · obtain ⟨c₂, hc, -⟩ :=
      (C3_get_semantics ⟨2, 300, [(kq, (7, 5))]⟩ "q" none "u" 9 kq
        (by decide)).2.1 7 5 (by decide) (by decide)
    exact ⟨c₂, hc⟩
  · obtain ⟨c₂, hc, -⟩ :=
      (C3_get_semantics ⟨2, 300, [(kq, (7, 5))]⟩ "q" none "u" 4 kq
        (by decide)).2.2 7 5 (by decide) (by decide)
    exact ⟨c₂, hc⟩

/-- Concrete instances of C4: explicit ttl, default ttl, and ttl 0 expiring
on the next strictly later access. -/
theorem C4_witness :
    ((QueryCache.runSet (⟨2, 300, []⟩ : QueryCache Nat) "q" none "u" 7
      (some 50) 0).cache.lookup kq = some (7, 0 + 50)) ∧
    ((QueryCache.runSet (⟨2, 300, []⟩ : QueryCache Nat) "q" none "u" 7
      none 0).cache.lookup kq = some (7, 0 + 300)) ∧
    (∃ c₂, (QueryCache.runSet (⟨2, 300, []⟩ : QueryCache Nat) "q" none "u" 7
      (some 0) 0).get "q" none "u" 1 = .ok (none, c₂)) := by
  have h := C4_expiry_computation (⟨2, 300, []⟩ : QueryCache Nat) "q" none "u"
    7 0 kq (by decide) (by decide)
  exact ⟨h.1 50 _ rfl, h.2.1 _ rfl, h.2.2 _ 1 rfl (by decide)⟩

/-- Concrete instance of C5: two construction orders of the same variables
mapping, and absent versus empty variables, derive the same key. -/
theorem C5_witness :
    (_make_key "q" (some [("a", .vint 1), ("b", .vstr "x")]) "u"
      = _make_key "q" (some [("b", .vstr "x"), ("a", .vint 1)]) "u") ∧
    _make_key "q" none "u" = _make_key "q" (some []) "u" := by
  refine ⟨?_, (C5_structural_variables "q" "u").2⟩
  exact (C5_structural_variables "q" "u").1 _ _
    (List.Perm.swap ("b", PyVal.vstr "x") ("a", PyVal.vint 1) []) (by decide)

/-- Concrete instance of C6: the spec's two reformattings of
`"query \x7b test \x7d"` hit the entry stored under the original text. -/
theorem C6_witness :
    (_make_key "query \x7b test \x7d" none "u"
      = _make_key "query  \x7b  test  \x7d" none "u") ∧
    (∃ c₂, (QueryCache.runSet (⟨10, 300, []⟩ : QueryCache Nat)
        "query \x7b test \x7d" none "u" 7 none 0).get
        "query  \x7b  test  \x7d" none "u" 0 = .ok (some 7, c₂)) ∧
    (∃ c₂, (QueryCache.runSet (⟨10, 300, []⟩ : QueryCache Nat)
        "query \x7b test \x7d" none "u" 7 none 0).get
        "query\n\x7b\n test\n\x7d" none "u" 0 = .ok (some 7, c₂)) := by
  refine ⟨C6_whitespace_normalization.1 _ _ none "u" (by decide), ?_⟩
  exact C6_whitespace_normalization.2 Nat ⟨10, 300, []⟩ _ none "u" 7 0
    (by decide) (by decide) rfl

/-- Concrete instances of C8: invalidating a present key, and a missing
key. -/
theorem C8_witness :
    (∃ c', QueryCache.invalidate (⟨2, 300, [(kq, ((7 : Nat), (5 : Int)))]⟩)
      "q" none "u" = .ok (true, c') ∧ c'.cache.lookup kq = none) ∧
    (QueryCache.invalidate (⟨2, 300, []⟩ : QueryCache Nat) "q" none "u"
      = .ok (false, ⟨2, 300, []⟩)) := by
  constructor
  · obtain ⟨c', h1, h2, -⟩ :=
      (C8_invalidate_semantics ⟨2, 300, [(kq, (7, 5))]⟩ "q" none "u" kq
        (by decide)).1 7 5 (by decide)
    exact ⟨c', h1, h2⟩
  · exact (C8_invalidate_semantics ⟨2, 300, []⟩ "q" none "u" kq
      (by decide)).2 (by decide)

/-- Concrete instance of C9: variables containing a Python `set` make both
`set` and `get` raise, clearly typed, with the cache unchanged. -/
theorem C9_witness :
    QueryCache.set (⟨2, 300, []⟩ : QueryCache Nat) "q"
      (some [("x", .vobj "set")]) "u" 7 none 0
      = .error (.typeError "Object is not JSON serializable") ∧
    QueryCache.runSet (⟨2, 300, []⟩ : QueryCache Nat) "q"
      (some [("x", .vobj "set")]) "u" 7 none 0 = ⟨2, 300, []⟩ ∧
    QueryCache.get (⟨2, 300, []⟩ : QueryCache Nat) "q"
      (some [("x", .vobj "set")]) "u" 0
      = .error (.typeError "Object is not JSON serializable") ∧
    QueryCache.runGet (⟨2, 300, []⟩ : QueryCache Nat) "q"
      (some [("x", .vobj "set")]) "u" 0 = ⟨2, 300, []⟩ ∧
    QueryCache.peek (⟨2, 300, []⟩ : QueryCache Nat) "q"
      (some [("x", .vobj "set")]) "u" 0 = none :=
  C9_failed_key_derivation ⟨2, 300, []⟩ "q" (some [("x", .vobj "set")]) "u"
    7 none 0 (by decide)

/-- Concrete instance of C10: at a time exactly equal to the expiry the
entry is served, and `stats` counts nothing expired. -/
theorem C10_witness :
    (∃ c₂, QueryCache.get (⟨2, 300, [(kq, ((7 : Nat), (5 : Int)))]⟩)
      "q" none "u" 5 = .ok (some 7, c₂)) ∧
    ((QueryCache.stats (⟨2, 300, [(kq, ((7 : Nat), (5 : Int)))]⟩) 5).1.expired_items
      = 0) := by
  have h := C10_expiry_is_strict (⟨2, 300, [(kq, (7, 5))]⟩ : QueryCache Nat)
    "q" none "u" 5 kq 7 5 (by decide) (by decide)
  exact ⟨h.1.mpr (by decide), h.2 (by decide)⟩
